import Mathlib

/-!
Verification development for the Deliveraite document-generation client.

The embedded code comes from two files of the repository:
* `src/web/src/App.vue` — JSON repair utilities (`repairTruncatedJson`),
  outline word-count validation (`validateAndFixTargetWords`) and outline
  flattening (`parseNestedOutline`);
* `src/unnamed/part_002` — the document view: title normalization and
  numbering helpers, `reconstructHierarchy`, `treeData`/`buildTree`,
  the heading-inference merge functions `syncSubSectionsToOutlineRealtime`
  and `syncSubSectionsToOutline`, the streaming `<summary>` extraction in
  `sendMessage`, and the pagination constants with `updatePageCount`.

Strings are embedded as `List Char` (JavaScript strings are sequences of
UTF-16 code units; every character appearing in this development is a
single BMP code unit, so the two views agree).  Each definition mirrors
one JavaScript function or expression; regular-expression operations are
translated to explicit scans with JavaScript `replace`/`match` semantics
(leftmost match, global scans resume after the replaced segment).
-/

/-- Membership in JavaScript's `\s` character class (whitespace as used by
the regexes in the source; line terminators are included). -/
def jsWhitespace (c : Char) : Bool :=
  c = ' ' ∨ c = '\t' ∨ c = '\n' ∨ c = '\r' ∨ c = '\x0b' ∨ c = '\x0c' ∨
  c = ' ' ∨ c = ' ' ∨ (' ' ≤ c ∧ c ≤ ' ') ∨
  c = ' ' ∨ c = ' ' ∨ c = ' ' ∨ c = ' ' ∨
  c = '　' ∨ c = '﻿'

/-- JavaScript `String.prototype.trim`. -/
def jsTrim (l : List Char) : List Char :=
  ((l.dropWhile jsWhitespace).reverse.dropWhile jsWhitespace).reverse

/-- Drop only trailing whitespace. -/
def dropTrailingWs (l : List Char) : List Char :=
  (l.reverse.dropWhile jsWhitespace).reverse

/-- Decimal digits, fuelled so that the definition reduces by iota; the
fuel (strictly more than the number of digits) is never exhausted. -/
def natCharsFuel : Nat → Nat → List Char
  | 0, _ => []
  | fuel + 1, n =>
    if n < 10 then [Char.ofNat (48 + n)]
    else natCharsFuel fuel (n / 10) ++ [Char.ofNat (48 + n % 10)]

/-- Decimal digit characters of a natural number (used for template-literal
interpolation of numeric indices, e.g. in `fixSectionTitleNumbering`). -/
def natChars (n : Nat) : List Char := natCharsFuel (n + 1) n

/-- JavaScript identifier-ish class `[a-zA-Z0-9_]` from the bare-key regex. -/
def isIdentChar (c : Char) : Bool :=
  (('a' ≤ c ∧ c ≤ 'z') ∨ ('A' ≤ c ∧ c ≤ 'Z') ∨ ('0' ≤ c ∧ c ≤ '9') ∨ c = '_')

/-!  ## `repairTruncatedJson` (src/web/src/App.vue, lines 245–334)

The repair pipeline, step by step in source order.  -/

/-- Step 1a: `repaired.replace(/^```json\s*/, '')`. -/
def stripLeadingJsonFence (l : List Char) : List Char :=
  if ("```json".data).isPrefixOf l then (l.drop 7).dropWhile jsWhitespace else l

/-- Step 1b: `.replace(/```$/, '')` — remove three trailing backticks. -/
def stripTrailingFence (l : List Char) : List Char :=
  if ("```".data).isSuffixOf l then l.take (l.length - 3) else l

/-- Step 2's scan state: final in-string flag of the quote/escape scan. -/
def scanInString : List Char → Bool → Bool → Bool
  | [], inS, _ => inS
  | c :: cs, inS, esc =>
    if c = '\\' ∧ esc = false then scanInString cs inS true
    else if c = '"' ∧ esc = false then scanInString cs (!inS) false
    else scanInString cs inS false

/-- Step 2: append a closing quote when the scan ends inside a string. -/
def closeUnterminated (l : List Char) : List Char :=
  if scanInString l false false then l ++ ['"'] else l

/-- Step 3a, fuelled scan: global replace of a comma (plus whitespace)
directly before a closing brace/bracket by just the closer.  Every step
consumes at least one character, so fuel `length` is never exhausted. -/
def fixCommaBeforeCloserFuel : Nat → List Char → List Char
  | 0, l => l
  | fuel + 1, l =>
    match l with
    | [] => []
    | c :: cs =>
      if c = ',' then
        match cs.dropWhile jsWhitespace with
        | d :: rest2 =>
          if d = '}' ∨ d = ']' then d :: fixCommaBeforeCloserFuel fuel rest2
          else c :: fixCommaBeforeCloserFuel fuel cs
        | [] => c :: fixCommaBeforeCloserFuel fuel cs
      else c :: fixCommaBeforeCloserFuel fuel cs

/-- Step 3a: `replace` with global flag of comma-then-closer by the closer. -/
def fixCommaBeforeCloser (l : List Char) : List Char :=
  fixCommaBeforeCloserFuel l.length l

/-- Step 3b: replace of a trailing comma (followed only by whitespace)
at the end of the string by nothing. -/
def stripTrailingComma (l : List Char) : List Char :=
  let r := dropTrailingWs l
  match r.getLast? with
  | some ',' => r.dropLast
  | _ => l

/-- Step 4, fuelled scan: global replace of `a` + whitespace + `b` by
`a,b` (instantiated with the closer/opener pairs). -/
def insertCommaBetweenFuel (a b : Char) : Nat → List Char → List Char
  | 0, l => l
  | fuel + 1, l =>
    match l with
    | [] => []
    | c :: cs =>
      if c = a then
        match cs.dropWhile jsWhitespace with
        | d :: rest2 =>
          if d = b then a :: ',' :: b :: insertCommaBetweenFuel a b fuel rest2
          else c :: insertCommaBetweenFuel a b fuel cs
        | [] => c :: insertCommaBetweenFuel a b fuel cs
      else c :: insertCommaBetweenFuel a b fuel cs

/-- Step 4: the two missing-separator replaces. -/
def insertCommaBetween (a b : Char) (l : List Char) : List Char :=
  insertCommaBetweenFuel a b l.length l

/-- Step 5, fuelled scan: global replace quoting bare identifier keys (an
identifier between an opening brace or comma and a colon gets quotes). -/
def quoteBareKeysFuel : Nat → List Char → List Char
  | 0, l => l
  | fuel + 1, l =>
    match l with
    | [] => []
    | c :: cs =>
      if c = '{' ∨ c = ',' then
        let ws1 := cs.takeWhile jsWhitespace
        let r1 := cs.drop ws1.length
        let idt := r1.takeWhile isIdentChar
        let r2 := r1.drop idt.length
        let ws2 := r2.takeWhile jsWhitespace
        match r2.drop ws2.length with
        | d :: r4 =>
          if d = ':' ∧ idt ≠ [] then
            c :: (ws1 ++ '"' :: (idt ++ '"' :: (ws2 ++ ':' :: quoteBareKeysFuel fuel r4)))
          else c :: quoteBareKeysFuel fuel cs
        | [] => c :: quoteBareKeysFuel fuel cs
      else c :: quoteBareKeysFuel fuel cs

/-- Step 5: quote bare identifier keys. -/
def quoteBareKeys (l : List Char) : List Char :=
  quoteBareKeysFuel l.length l

/-- Step 6: the bracket-balancing scan.  Unmatched closers are dropped;
on exhaustion the pending closers (LIFO) are appended. -/
def balanceBrackets : List Char → Bool → Bool → List Char → List Char
  | [], _, _, stack => stack
  | c :: cs, inS, esc, stack =>
    if c = '\\' ∧ esc = false then c :: balanceBrackets cs inS true stack
    else if c = '"' ∧ esc = false then c :: balanceBrackets cs (!inS) false stack
    else if inS then c :: balanceBrackets cs inS false stack
    else if c = '{' then c :: balanceBrackets cs inS false ('}' :: stack)
    else if c = '[' then c :: balanceBrackets cs inS false (']' :: stack)
    else if c = '}' ∨ c = ']' then
      match stack with
      | top :: rest =>
        if top = c then c :: balanceBrackets cs inS false rest
        else balanceBrackets cs inS false stack
      | [] => balanceBrackets cs inS false stack
    else c :: balanceBrackets cs inS false stack

/-- `repairTruncatedJson` (src/web/src/App.vue lines 245–334): trim,
strip code fences, close an unterminated string, fix commas, insert
missing separators, quote bare keys, and re-balance brackets. -/
def repairTruncatedJson (l : List Char) : List Char :=
  if l = [] then []
  else
    let r1 := jsTrim (stripTrailingFence (stripLeadingJsonFence (jsTrim l)))
    let r2 := closeUnterminated r1
    let r3 := stripTrailingComma (fixCommaBeforeCloser r2)
    let r4 := insertCommaBetween ']' '[' (insertCommaBetween '}' '{' r3)
    let r5 := quoteBareKeys r4
    balanceBrackets r5 false false []

/-!  ## Structured-value decoding (model of `JSON.parse`)

`smartParseJson` and the repair fallbacks decode via the platform's
`JSON.parse`.  The decoder below is modelled from the standard JSON
grammar, restricted to the fragments the claims exercise: numerals are
integers (no fraction/exponent) and string escapes are the
single-character escapes.  -/

/-- A decoded JSON value. -/
inductive Json where
  | null : Json
  | bool (b : Bool) : Json
  | num (n : Int) : Json
  | str (s : List Char) : Json
  | arr (elems : List Json) : Json
  | obj (members : List (List Char × Json)) : Json

/-- JSON insignificant whitespace. -/
def jsonWs (c : Char) : Bool :=
  c = ' ' ∨ c = '\t' ∨ c = '\n' ∨ c = '\r'

/-- Decode a JSON string body after the opening quote; returns the decoded
content and the remainder after the closing quote. -/
def parseStringBody : List Char → Option (List Char × List Char)
  | [] => none
  | c :: cs =>
    if c = '"' then some ([], cs)
    else if c = '\\' then
      match cs with
      | e :: cs2 =>
        let dec : Option Char :=
          if e = '"' then some '"'
          else if e = '\\' then some '\\'
          else if e = '/' then some '/'
          else if e = 'b' then some '\x08'
          else if e = 'f' then some '\x0c'
          else if e = 'n' then some '\n'
          else if e = 'r' then some '\r'
          else if e = 't' then some '\t'
          else none
        match dec with
        | some d => (parseStringBody cs2).map (fun p => (d :: p.1, p.2))
        | none => none
      | [] => none
    else if c.toNat < 32 then none
    else (parseStringBody cs).map (fun p => (c :: p.1, p.2))

/-- Digit run to a natural number value. -/
def digitsVal (ds : List Char) : Int :=
  ds.foldl (fun a c => a * 10 + ((c.toNat : Int) - 48)) 0

/-- Decode an unsigned JSON integer numeral (rejects leading zeros and
fraction/exponent continuations, which this model does not support). -/
def parseUInt (l : List Char) : Option (Int × List Char) :=
  let ds := l.takeWhile Char.isDigit
  let rest := l.drop ds.length
  if ds = [] then none
  else if ds.head? = some '0' ∧ ds.length > 1 then none
  else
    match rest.head? with
    | some c => if c = '.' ∨ c = 'e' ∨ c = 'E' then none else some (digitsVal ds, rest)
    | none => some (digitsVal ds, rest)

mutual

/-- Decode one JSON value (fuelled recursive-descent following the
standard grammar). -/
def parseVal : Nat → List Char → Option (Json × List Char)
  | 0, _ => none
  | fuel + 1, l =>
    match l.dropWhile jsonWs with
    | [] => none
    | c :: cs =>
      if c = 'n' then
        if ("ull".data).isPrefixOf cs then some (.null, cs.drop 3) else none
      else if c = 't' then
        if ("rue".data).isPrefixOf cs then some (.bool true, cs.drop 3) else none
      else if c = 'f' then
        if ("alse".data).isPrefixOf cs then some (.bool false, cs.drop 4) else none
      else if c = '"' then
        (parseStringBody cs).map (fun p => (.str p.1, p.2))
      else if c = '-' then
        (parseUInt cs).map (fun p => (.num (-p.1), p.2))
      else if c.isDigit then
        (parseUInt (c :: cs)).map (fun p => (.num p.1, p.2))
      else if c = '[' then parseArrTail fuel cs
      else if c = '{' then parseObjTail fuel cs
      else none

/-- Decode the rest of an array after `[`. -/
def parseArrTail : Nat → List Char → Option (Json × List Char)
  | 0, _ => none
  | fuel + 1, l =>
    match l.dropWhile jsonWs with
    | ']' :: r => some (.arr [], r)
    | _ => parseElems fuel l []

/-- Decode comma-separated array elements (accumulator in reverse). -/
def parseElems : Nat → List Char → List Json → Option (Json × List Char)
  | 0, _, _ => none
  | fuel + 1, l, acc =>
    match parseVal fuel l with
    | some (v, r) =>
      match r.dropWhile jsonWs with
      | ',' :: r2 => parseElems fuel r2 (v :: acc)
      | ']' :: r2 => some (.arr (v :: acc).reverse, r2)
      | _ => none
    | none => none

/-- Decode the rest of an object after an opening brace. -/
def parseObjTail : Nat → List Char → Option (Json × List Char)
  | 0, _ => none
  | fuel + 1, l =>
    match l.dropWhile jsonWs with
    | '}' :: r => some (.obj [], r)
    | _ => parseMembers fuel l []

/-- Decode comma-separated `key : value` members (accumulator reversed). -/
def parseMembers : Nat → List Char → List (List Char × Json) → Option (Json × List Char)
  | 0, _, _ => none
  | fuel + 1, l, acc =>
    match l.dropWhile jsonWs with
    | '"' :: cs =>
      match parseStringBody cs with
      | some (key, r) =>
        match r.dropWhile jsonWs with
        | ':' :: r2 =>
          match parseVal fuel r2 with
          | some (v, r3) =>
            match r3.dropWhile jsonWs with
            | ',' :: r4 => parseMembers fuel r4 ((key, v) :: acc)
            | '}' :: r4 => some (.obj ((key, v) :: acc).reverse, r4)
            | _ => none
          | none => none
        | _ => none
      | none => none
    | _ => none

end

/-- Decode a complete JSON text (modelled `JSON.parse`): one value,
then only whitespace may remain. -/
def parseJsonText (l : List Char) : Option Json :=
  match parseVal (3 * l.length + 3) l with
  | some (v, r) => if r.dropWhile jsonWs = [] then some v else none
  | none => none

/-!  ## Title normalization and numbering (src/unnamed/part_002)  -/

/-- Leading-hash strip of `getNormalizedTitle`: remove a leading run of
hash marks when followed by whitespace, and that whitespace run. -/
def stripLeadingHashes (t : List Char) : List Char :=
  let hs := t.takeWhile (· = '#')
  if hs ≠ [] then
    let r := t.drop hs.length
    let ws := r.takeWhile jsWhitespace
    if ws ≠ [] then r.drop ws.length else t
  else t

/-- Leading-numbering strip of `getNormalizedTitle`: remove a leading run
of digits and dots plus any following whitespace. -/
def stripLeadingDigitsDots (t : List Char) : List Char :=
  let ds := t.takeWhile (fun c => c.isDigit ∨ c = '.')
  if ds ≠ [] then (t.drop ds.length).dropWhile jsWhitespace else t

/-- Global removal of bold markers (pairs of asterisks). -/
def removeDoubleStars : List Char → List Char
  | '*' :: '*' :: rest => removeDoubleStars rest
  | c :: rest => c :: removeDoubleStars rest
  | [] => []

/-- Fuelled global replace of each whitespace run by a single space. -/
def collapseWsFuel : Nat → List Char → List Char
  | 0, l => l
  | fuel + 1, l =>
    match l with
    | [] => []
    | c :: cs =>
      if jsWhitespace c then ' ' :: collapseWsFuel fuel (cs.dropWhile jsWhitespace)
      else c :: collapseWsFuel fuel cs

/-- Collapse whitespace runs to single spaces. -/
def collapseWs (l : List Char) : List Char := collapseWsFuel l.length l

/-- `getNormalizedTitle` (part_002 lines 479–487): trim, lower-case,
strip leading hashes, strip leading numbering, drop bold markers,
collapse whitespace.  (`Char.toLower`, like the source on the ASCII and
CJK characters occurring here, lower-cases only ASCII letters.) -/
def getNormalizedTitle (title : List Char) : List Char :=
  collapseWs (removeDoubleStars (stripLeadingDigitsDots (stripLeadingHashes
    ((jsTrim title).map Char.toLower))))

/-- CJK numbering characters recognized by `getSectionNumberPrefix`. -/
def isCjkDigit (c : Char) : Bool :=
  c = '一' ∨ c = '二' ∨ c = '三' ∨ c = '四' ∨ c = '五' ∨
  c = '六' ∨ c = '七' ∨ c = '八' ∨ c = '九' ∨ c = '十'

/-- The `chineseNums` lookup table of `getSectionNumberPrefix`. -/
def cjkPairs : List (List Char × List Char) :=
  [("一".data, "1".data), ("二".data, "2".data), ("三".data, "3".data),
   ("四".data, "4".data), ("五".data, "5".data), ("六".data, "6".data),
   ("七".data, "7".data), ("八".data, "8".data), ("九".data, "9".data),
   ("十".data, "10".data), ("十一".data, "11".data), ("十二".data, "12".data),
   ("十三".data, "13".data), ("十四".data, "14".data), ("十五".data, "15".data),
   ("十六".data, "16".data), ("十七".data, "17".data), ("十八".data, "18".data),
   ("十九".data, "19".data), ("二十".data, "20".data)]

/-- `chineseNums[run] || run`. -/
def cjkMapped (run : List Char) : List Char :=
  (cjkPairs.lookup run).getD run

/-- Fuelled tail of the arabic numbering pattern: zero or more
dot-plus-digit-run groups. -/
def arabicTailFuel : Nat → List Char → List Char
  | 0, _ => []
  | fuel + 1, l =>
    match l with
    | '.' :: rest =>
      let ds := rest.takeWhile Char.isDigit
      if ds ≠ [] then '.' :: (ds ++ arabicTailFuel fuel (rest.drop ds.length))
      else []
    | _ => []

/-- `getSectionNumberPrefix` (part_002 lines 490–513): arabic dotted
numbering, else a CJK ordinal before an enumeration comma, else a
parenthesized CJK ordinal; empty otherwise. -/
def getSectionNumberPrefix (title : List Char) : List Char :=
  let d0 := title.takeWhile Char.isDigit
  if d0 ≠ [] then d0 ++ arabicTailFuel title.length (title.drop d0.length)
  else
    let cj := title.takeWhile isCjkDigit
    if cj ≠ [] ∧ (title.drop cj.length).head? = some '、' then cjkMapped cj
    else
      match title with
      | '（' :: rest =>
        let cj2 := rest.takeWhile isCjkDigit
        if cj2 ≠ [] ∧ (rest.drop cj2.length).head? = some '）' then cjkMapped cj2
        else []
      | _ => []

/-- `fixSectionTitleNumbering` (part_002 lines 516–525): when the parent
title carries a numbering prefix, build `parentPrefix.(index+1)` followed
by the normalized child title; otherwise keep the child title. -/
def fixSectionTitleNumbering (parentTitle childTitle : List Char) (index : Nat) : List Char :=
  let parentPrefix := getSectionNumberPrefix parentTitle
  let normalizedChildTitle := getNormalizedTitle childTitle
  if parentPrefix ≠ [] then
    parentPrefix ++ '.' :: (natChars (index + 1) ++ ' ' :: normalizedChildTitle)
  else childTitle

/-!  ## Sections and hierarchy reconstruction (src/unnamed/part_002)  -/

/-- A section of `documentData` (the data model's Section): the fields the
embedded functions read or write. -/
structure Section where
  id : List Char
  parentId : Option (List Char)
  title : List Char
  content : List Char
  targetWords : Int
  status : List Char
deriving DecidableEq, Repr

/-- JavaScript `split` on a dot separator. -/
def splitDot : List Char → List (List Char)
  | [] => [[]]
  | c :: cs =>
    let r := splitDot cs
    if c = '.' then [] :: r
    else
      match r with
      | [] => [[c]]
      | g :: gs => (c :: g) :: gs

/-- `parts.slice(0, -1).join(".")`. -/
def joinDot (parts : List (List Char)) : List Char :=
  List.intercalate ['.'] parts

/-- Model of JavaScript `Number` on the strings produced by splitting a
numbering prefix: the empty string is 0, a digit run is its value, and
anything else (e.g. an unmapped CJK ordinal) is NaN, encoded as `none`. -/
def jsNumber (l : List Char) : Option Int :=
  if l = [] then some 0
  else if l.all Char.isDigit then some (digitsVal l)
  else none

/-- Comparison-loop tail once the first prefix has run out of components
(its entries read as −1). -/
def cmpTailRight : List (Option Int) → Int
  | [] => 0
  | y :: ys =>
    match y with
    | some b => if (-1 : Int) = b then cmpTailRight ys else (-1) - b
    | none => 0

/-- Comparison-loop tail once the second prefix has run out of components. -/
def cmpTailLeft : List (Option Int) → Int
  | [] => 0
  | x :: xs =>
    match x with
    | some a => if a = (-1 : Int) then cmpTailLeft xs else a - (-1)
    | none => 0

/-- The component-comparison loop of `reconstructHierarchy`'s sort: missing
components read as −1; any NaN comparison returns (ECMA `SortCompare`
treats a NaN comparator result as 0). -/
def cmpNumLists : List (Option Int) → List (Option Int) → Int
  | [], ys => cmpTailRight ys
  | x :: xs, [] => cmpTailLeft (x :: xs)
  | x :: xs, y :: ys =>
    match x, y with
    | some a, some b => if a = b then cmpNumLists xs ys else a - b
    | _, _ => 0

/-- The sort comparator of `reconstructHierarchy` (part_002 lines 336–354):
unnumbered sections last, otherwise numeric component-wise comparison of
the dotted prefixes. -/
def compareSections (a b : Section) : Int :=
  let prefixA := getSectionNumberPrefix a.title
  let prefixB := getSectionNumberPrefix b.title
  if prefixA = [] ∧ prefixB = [] then 0
  else if prefixA = [] then 1
  else if prefixB = [] then -1
  else cmpNumLists ((splitDot prefixA).map jsNumber) ((splitDot prefixB).map jsNumber)

/-- One `prefixMap[prefix] = item.id` assignment of `reconstructHierarchy`
(a later write overwrites an earlier one for the same prefix). -/
def prefixMapStep (m : List Char → Option (List Char)) (it : Section) :
    List Char → Option (List Char) :=
  let p := getSectionNumberPrefix it.title
  if p = [] then m else fun q => if q = p then some it.id else m q

/-- The `prefixMap` object of `reconstructHierarchy`, built by the
`forEach` over the data in list order. -/
def sectionPrefixMap (data : List Section) : List Char → Option (List Char) :=
  data.foldl prefixMapStep (fun _ => none)

/-- The per-item parent assignment of `reconstructHierarchy` (lines
314–333): unnumbered items keep their (null-coalesced) parent link, a
multi-component prefix looks up its parent prefix and links to it only
when the looked-up id is truthy (the source's `if (parentId)` check:
an absent binding and the empty-string id are both falsy), everything
else becomes a root. -/
def assignParentId (pm : List Char → Option (List Char)) (it : Section) : Section :=
  let p := getSectionNumberPrefix it.title
  if p = [] then { it with parentId := it.parentId }
  else
    let parts := splitDot p
    if parts.length > 1 then
      match pm (joinDot parts.dropLast) with
      | some pid =>
        if pid ≠ [] then { it with parentId := some pid }
        else { it with parentId := none }
      | none => { it with parentId := none }
    else { it with parentId := none }

/-- `reconstructHierarchy` (part_002 lines 301–355): build the prefix map,
assign parent links, and sort by numbering.  ECMAScript `sort` is a
stable sort over the comparator; it is modelled by a stable insertion
sort, and only its permutation property is used by the claims. -/
def reconstructHierarchy (data : List Section) : List Section :=
  if data = [] then []
  else
    let pm := sectionPrefixMap data
    let listWithParents := data.map (assignParentId pm)
    listWithParents.insertionSort (fun a b => compareSections a b ≤ 0)

/-!  ## Nested outlines, flattening, and the preview tree  -/

/-- A nested outline descriptor (an element of the arrays handed to
`parseNestedOutline`, with a `children` field). -/
inductive NSec where
  | mk (id : List Char) (title : List Char) (targetWords : Int) (children : List NSec)

/-- Identifier of a nested descriptor. -/
def NSec.id : NSec → List Char
  | .mk i _ _ _ => i

/-- Title of a nested descriptor. -/
def NSec.title : NSec → List Char
  | .mk _ t _ _ => t

/-- Word budget of a nested descriptor. -/
def NSec.targetWords : NSec → Int
  | .mk _ _ w _ => w

/-- Children of a nested descriptor. -/
def NSec.children : NSec → List NSec
  | .mk _ _ _ cs => cs

/-- A flattened descriptor, as produced by `parseNestedOutline`: the
original fields minus `children`, plus an explicit `parentId`. -/
structure FlatSec where
  id : List Char
  title : List Char
  targetWords : Int
  parentId : Option (List Char)
deriving DecidableEq, Repr

/-- The record `flattenOutline` pushes for a descriptor under parent `p`. -/
def flatHead (t : NSec) (p : Option (List Char)) : FlatSec :=
  ⟨t.id, t.title, t.targetWords, p⟩

mutual

/-- One item's contribution to `flattenOutline`: the item without its
`children`, then its flattened children under its id. -/
def flattenOne : NSec → Option (List Char) → List FlatSec
  | .mk i t w cs, p => ⟨i, t, w, p⟩ :: flattenOutline cs (some i)

/-- The `flattenOutline` recursion of `parseNestedOutline`
(src/web/src/App.vue lines 344–354). -/
def flattenOutline : List NSec → Option (List Char) → List FlatSec
  | [], _ => []
  | t :: ts, p => flattenOne t p ++ flattenOutline ts p

end

/-- `parseNestedOutline` (App.vue lines 341–357). -/
def parseNestedOutline (ts : List NSec) : List FlatSec :=
  flattenOutline ts none

/-- A node of the rendered tree produced by `treeData`'s `buildTree`
(absent `children` is represented by the empty list). -/
inductive TNode where
  | mk (key : List Char) (title : List Char) (targetWords : Int)
       (status : List Char) (isLeaf : Bool) (children : List TNode)

/-- Key of a tree node. -/
def TNode.key : TNode → List Char
  | .mk k _ _ _ _ _ => k

/-- Children of a tree node. -/
def TNode.children : TNode → List TNode
  | .mk _ _ _ _ _ cs => cs

/-- Fuelled `buildTree` of the `treeData` computed property (part_002
lines 272–289): children of `parentId`, recursing with a depth guard.
The fuel is `11 - depth`, so the iota-reducible definition satisfies the
source recursion exactly (`buildTree_eq` below). -/
def buildTreeFuel (list : List FlatSec) : Nat → Option (List Char) → Nat → List TNode
  | 0, _, _ => []
  | fuel + 1, parentId, depth =>
    if depth > 10 then []
    else
      (list.filter (fun it => it.parentId == parentId)).map (fun it =>
        let children := buildTreeFuel list fuel (some it.id) (depth + 1)
        TNode.mk it.id
          (if it.title = [] then "未命名章节".data else it.title)
          (if it.targetWords = 0 then 0 else it.targetWords)
          "pending".data
          (children.length == 0)
          children)

/-- `buildTree(list, parentId, depth)`; the descriptors flattened by
`parseNestedOutline` carry no `status`, so every node reads the
`'pending'` fallback. -/
def buildTree (list : List FlatSec) (parentId : Option (List Char)) (depth : Nat) : List TNode :=
  buildTreeFuel list (11 - depth) parentId depth

/-- The `treeData` computed property applied to flattened descriptors
(its `parentId ?? null` normalization is the identity on this model). -/
def treeData (flat : List FlatSec) : List TNode :=
  buildTree flat none 0

/-!  ## Heading recognition inside streamed prose (src/unnamed/part_002)

Both merge functions scan the body text with a multiline regex matching
lines made of two or more hash marks, whitespace, and a non-empty rest.
A match records its character offset, the hash count (heading level), the
length of the full matched line, and the raw title group.  -/

/-- One regex match of the heading pattern. -/
structure HMatch where
  index : Nat
  level : Nat
  m0len : Nat
  title : List Char
deriving DecidableEq, Repr

/-- Fuelled split of the buffer into lines with their character offsets
(the buffers here use the newline terminator only). -/
def linesWithOffsetsFuel : Nat → List Char → Nat → List (Nat × List Char)
  | 0, _, _ => []
  | fuel + 1, cs, o =>
    match cs with
    | [] => []
    | _ =>
      let line := cs.takeWhile (· ≠ '\n')
      (o, line) :: linesWithOffsetsFuel fuel (cs.drop (line.length + 1)) (o + line.length + 1)

/-- Lines of a buffer with their character offsets. -/
def linesWithOffsets (cs : List Char) : List (Nat × List Char) :=
  linesWithOffsetsFuel cs.length cs 0

/-- Try the heading pattern on one line: a run of at least two hashes,
then at least one whitespace, then a non-empty rest; when the line ends
in the whitespace run, backtracking leaves its last character as the
title group (as the greedy/lazy interplay of the source regex does). -/
def analyzeHeadingLine (ol : Nat × List Char) : Option HMatch :=
  let o := ol.1
  let line := ol.2
  let hs := line.takeWhile (· = '#')
  if hs.length ≥ 2 then
    let r := line.drop hs.length
    let ws := r.takeWhile jsWhitespace
    let rest := r.drop ws.length
    if ws.length = 0 then none
    else if rest ≠ [] then some ⟨o, hs.length, line.length, rest⟩
    else if ws.length ≥ 2 then some ⟨o, hs.length, line.length, [ws.getLastD ' ']⟩
    else none
  else none

/-- All heading matches of the body buffer (the `matchAll` result). -/
def headingMatches (content : List Char) : List HMatch :=
  (linesWithOffsets content).filterMap analyzeHeadingLine

/-- JavaScript truthiness of a nullable-string field (null, undefined and
the empty string are falsy). -/
def jsTruthyOptStr : Option (List Char) → Bool
  | none => false
  | some s => s ≠ []

/-- JavaScript `Array.prototype.findIndex` (−1 when absent). -/
def jsFindIndex (p : Section → Bool) (l : List Section) : Int :=
  match l.findIdx? p with
  | some k => (k : Int)
  | none => -1

/-- JavaScript `Array.prototype.findLastIndex` (−1 when absent). -/
def jsFindLastIndex (p : Section → Bool) (l : List Section) : Int :=
  match l.reverse.findIdx? p with
  | some k => (l.length : Int) - 1 - k
  | none => -1

/-- `Array.prototype.splice(pos, 0, ...xs)`. -/
def spliceInsert (l : List Section) (pos : Nat) (xs : List Section) : List Section :=
  l.take pos ++ xs ++ l.drop pos

/-- The `forEach` loop body of `syncSubSectionsToOutlineRealtime` (part_002
lines 1864–1902), iterated over the matches: deeper-than-parent headings
whose normalized title is globally unused and differs from the parent's
spawn a new pending child inserted after the parent's last child.
`now` stands for `Date.now()`. -/
def syncRealtimeLoop (parentId parentTitle : List Char) (parentLevel : Nat)
    (normParent : List Char) (now : Nat) :
    List HMatch → Nat → List (List Char) → List Section → List Section
  | [], _, _, data => data
  | m :: ms, i, existingTitles, data =>
    if m.level ≤ parentLevel then
      syncRealtimeLoop parentId parentTitle parentLevel normParent now ms (i + 1)
        existingTitles data
    else
      let title := jsTrim m.title
      let normalizedTitle := getNormalizedTitle title
      let isSameAsParent := normalizedTitle = normParent
      let existsGlobally := existingTitles.contains normalizedTitle
      if ¬existsGlobally ∧ ¬isSameAsParent then
        let currentChildrenCount :=
          (data.filter (fun s => s.parentId == some parentId)).length
        let fixedTitle := fixSectionTitleNumbering parentTitle title currentChildrenCount
        let newSection : Section :=
          ⟨parentId ++ "-sub-tmp-".data ++ natChars now ++ "-".data ++ natChars i,
           some parentId, fixedTitle, [], 500, "pending".data⟩
        let lastIndex :=
          jsFindLastIndex (fun s => s.parentId == some parentId ∨ s.id == parentId) data
        let data' := spliceInsert data (lastIndex + 1).toNat [newSection]
        syncRealtimeLoop parentId parentTitle parentLevel normParent now ms (i + 1)
          (normalizedTitle :: existingTitles) data'
      else
        syncRealtimeLoop parentId parentTitle parentLevel normParent now ms (i + 1)
          existingTitles data

/-- `syncSubSectionsToOutlineRealtime` (part_002 lines 1842–1908). -/
def syncSubSectionsToOutlineRealtime (data : List Section) (parentId fullContent : List Char)
    (now : Nat) : List Section :=
  let hms := headingMatches fullContent
  if hms = [] then data
  else
    match data.findIdx? (fun s => s.id == parentId) with
    | none => data
    | some pidx =>
      match data[pidx]? with
      | none => data
      | some parent =>
        let parentTitle := parent.title
        let parentLevel := if jsTruthyOptStr parent.parentId then 3 else 2
        let normParent := getNormalizedTitle parentTitle
        let existingTitles := data.map (fun s => getNormalizedTitle s.title)
        syncRealtimeLoop parentId parentTitle parentLevel normParent now hms 0
          existingTitles data

/-- The child-building loop of `syncSubSectionsToOutline` (part_002 lines
1961–1989): spans between consecutive retained headings become the new
completed children; headings whose normalized title exists elsewhere in
the document are skipped. -/
def buildNewSubs (parentTitle parentId full : List Char) (now fullLen : Nat) :
    List HMatch → Nat → List (List Char) → Nat → List Section
  | [], _, _, _ => []
  | m :: ms, i, existingOther, count =>
    let title := jsTrim m.title
    let normalizedTitle := getNormalizedTitle title
    if existingOther.contains normalizedTitle then
      buildNewSubs parentTitle parentId full now fullLen ms (i + 1) existingOther count
    else
      let startIdx := m.index + m.m0len
      let endIdx :=
        match ms with
        | next :: _ => next.index
        | [] => fullLen
      let content := jsTrim ((full.take endIdx).drop startIdx)
      let fixedTitle := fixSectionTitleNumbering parentTitle title count
      ⟨parentId ++ "-sub-".data ++ natChars now ++ "-".data ++ natChars i,
       some parentId, fixedTitle, content, 500, "completed".data⟩
        :: buildNewSubs parentTitle parentId full now fullLen ms (i + 1)
            (normalizedTitle :: existingOther) (count + 1)

/-- `syncSubSectionsToOutline` (part_002 lines 1910–1997), the final
merge: filter usable deeper headings, give the pre-heading prose to the
parent (or the whole body when no heading is usable), build the new
children, drop the parent's previous children, and splice the new ones
in right after the parent. -/
def syncSubSectionsToOutline (data : List Section) (parentId fullContent : List Char)
    (now : Nat) : List Section :=
  let hms := headingMatches fullContent
  if hms = [] then data
  else
    match data.findIdx? (fun s => s.id == parentId) with
    | none => data
    | some pidx =>
      match data[pidx]? with
      | none => data
      | some parent =>
        let parentTitle := parent.title
        let parentLevel := if jsTruthyOptStr parent.parentId then 3 else 2
        let normParent := getNormalizedTitle parentTitle
        let actualMatches := hms.filter (fun m =>
          decide (parentLevel < m.level) &&
          !(getNormalizedTitle (jsTrim m.title) == normParent))
        match actualMatches with
        | [] => data.set pidx { parent with content := jsTrim fullContent }
        | first :: _ =>
          let parentContent := jsTrim (fullContent.take first.index)
          let data1 := data.set pidx { parent with content := parentContent }
          let existingOther :=
            (data1.filter (fun s => !(s.parentId == some parentId) && !(s.id == parentId))).map
              (fun s => getNormalizedTitle s.title)
          let newSubs :=
            buildNewSubs parentTitle parentId fullContent now fullContent.length
              actualMatches 0 existingOther 0
          let filteredData := data1.filter (fun s => !(s.parentId == some parentId))
          let newParentIdx := jsFindIndex (fun s => s.id == parentId) filteredData
          spliceInsert filteredData (newParentIdx + 1).toNat newSubs

/-!  ## Streaming summary extraction (src/unnamed/part_002, sendMessage)

On every chunk the accumulated buffer is re-matched against
`<summary>`, lazily up to the first `</summary>` or, failing that, the
end of the buffer; the trimmed group is the summary channel text.  -/

/-- First character index where `needle` occurs in the haystack. -/
def findSub (needle : List Char) : List Char → Option Nat
  | [] => if needle = [] then some 0 else none
  | l@(_ :: cs) =>
    if needle.isPrefixOf l then some 0
    else (findSub needle cs).map (· + 1)

/-- The summary text the chunk loop assigns (step 2 of `sendMessage`,
part_002 lines 1623–1627): `none` when no `<summary>` has appeared. -/
def extractSummary (buf : List Char) : Option (List Char) :=
  match findSub ("<summary>".data) buf with
  | none => none
  | some i =>
    let rest := buf.drop (i + 9)
    match findSub ("</summary>".data) rest with
    | some j => some (jsTrim (rest.take j))
    | none => some (jsTrim rest)

/-- The summary channel is closed: an opening delimiter occurred and a
closing delimiter occurs after it. -/
def summaryClosed (buf : List Char) : Bool :=
  match findSub ("<summary>".data) buf with
  | none => false
  | some i => (findSub ("</summary>".data) (buf.drop (i + 9))).isSome

/-!  ## Pagination (src/unnamed/part_002, lines 2048–2162)  -/

/-- The A4 virtual page height in pixels. -/
def PAGE_HEIGHT_PX : ℚ := 1122.5

/-- The inter-page gap in pixels. -/
def PAGE_GAP_PX : ℚ := 40

/-- The page-count computation of `updatePageCount` (lines 2150–2162)
applied to the measured content height. -/
def updatePageCount (contentHeight : ℚ) : ℤ :=
  max 1 ⌈contentHeight / (PAGE_HEIGHT_PX + PAGE_GAP_PX)⌉

/-!  ## Word-count validation (src/web/src/App.vue, lines 205–238)  -/

/-- An outline item as validated: title, level, word budget, children. -/
inductive OItem where
  | mk (title : List Char) (level : Nat) (targetWords : Int) (children : List OItem)

/-- The `maxWords` table with its index-or-default lookup
(`maxWords[item.level] || maxWords[4]`). -/
def levelMaxWords (level : Nat) : Int :=
  if level = 1 then 150000
  else if level = 2 then 80000
  else if level = 3 then 20000
  else 15000

mutual

/-- The `map` body of `validateAndFixTargetWords`: clamp an out-of-range
budget to the level's corrected value and recurse into the children. -/
def validateItem : OItem → OItem
  | .mk t level w cs =>
    let levelMax := levelMaxWords level
    let w' :=
      if w > levelMax ∨ w < 50 then
        if level = 1 then max 50 (min 100000 w)
        else if level = 2 then max 50 (min 50000 w)
        else if level = 3 then max 50 (min 10000 w)
        else max 50 (min 5000 w)
      else w
    .mk t level w' (validateAndFixTargetWords cs)

/-- `validateAndFixTargetWords` (App.vue lines 205–238). -/
def validateAndFixTargetWords : List OItem → List OItem
  | [] => []
  | x :: xs => validateItem x :: validateAndFixTargetWords xs

end

mutual

/-- The item with its word budget erased (what validation must keep). -/
def itemShape : OItem → OItem
  | .mk t l _ cs => .mk t l 0 (itemsShape cs)

/-- Shapes of a list of items. -/
def itemsShape : List OItem → List OItem
  | [] => []
  | x :: xs => itemShape x :: itemsShape xs

end

mutual

/-- The level-appropriate bound of the specification, recursively. -/
def itemInBounds : OItem → Bool
  | .mk _ l w cs =>
    (decide (50 ≤ w) && decide (w ≤ levelMaxWords l)) && itemsInBounds cs

/-- Bounds over a list of items. -/
def itemsInBounds : List OItem → Bool
  | [] => true
  | x :: xs => itemInBounds x && itemsInBounds xs

end

/-!  ## Tree skeletons and measures (for the flatten/re-nest round trip)  -/

/-- The id-labelled shape of a tree, common to nested descriptors and
rendered tree nodes. -/
inductive IdTree where
  | mk (id : List Char) (children : List IdTree)

mutual

/-- Skeleton of a nested descriptor. -/
def skelN : NSec → IdTree
  | .mk i _ _ cs => .mk i (skelNs cs)

/-- Skeletons of a descriptor forest. -/
def skelNs : List NSec → List IdTree
  | [] => []
  | t :: ts => skelN t :: skelNs ts

end

mutual

/-- Skeleton of a rendered tree node. -/
def skelT : TNode → IdTree
  | .mk k _ _ _ _ cs => .mk k (skelTs cs)

/-- Skeletons of a rendered forest. -/
def skelTs : List TNode → List IdTree
  | [] => []
  | t :: ts => skelT t :: skelTs ts

end

mutual

/-- Number of nodes of an id-tree. -/
def idTreeCount : IdTree → Nat
  | .mk _ cs => 1 + idForestCount cs

/-- Number of nodes of an id-forest. -/
def idForestCount : List IdTree → Nat
  | [] => 0
  | t :: ts => idTreeCount t + idForestCount ts

end

mutual

/-- All nodes of a descriptor subtree, in preorder. -/
def allNodesOne : NSec → List NSec
  | .mk i t w cs => .mk i t w cs :: allNodesList cs

/-- All nodes of a descriptor forest, in preorder. -/
def allNodesList : List NSec → List NSec
  | [] => []
  | t :: ts => allNodesOne t ++ allNodesList ts

end

/-- All identifiers occurring in a descriptor forest. -/
def allIds (ts : List NSec) : List (List Char) :=
  (allNodesList ts).map NSec.id

mutual

/-- Number of levels of a descriptor subtree. -/
def depthOne : NSec → Nat
  | .mk _ _ _ cs => 1 + depthList cs

/-- Number of levels of a descriptor forest. -/
def depthList : List NSec → Nat
  | [] => 0
  | t :: ts => max (depthOne t) (depthList ts)

end

/-- A single-branch descriptor chain of `n + 1` levels with distinct ids
(used to exercise the depth guard of `buildTree`). -/
def chainN : Nat → NSec
  | 0 => .mk ("n".data ++ natChars 0) "t".data 100 []
  | k + 1 => .mk ("n".data ++ natChars (k + 1)) "t".data 100 [chainN k]

/-!  ## Concrete inputs used by the claim instances  -/

/-- The raw unquoted-key payload of the spec's repair example. -/
def unquotedKeyPayload : List Char := "[\x7btitle:\"A\",targetWords:100\x7d]".data

/-- A top-level parent section titled with an arabic numbering prefix. -/
def parentSec : Section :=
  ⟨"p".data, none, "1. 总览".data, [], 1000, "writing".data⟩

/-- The spec example's accumulated body with level-2 hash headings. -/
def exampleBodyHash2 : List Char := "## 背景\n内容A\n## 目标\n内容B".data

/-- The same body with level-3 hash headings (strictly deeper than the
top-level parent's own level). -/
def exampleBodyHash3 : List Char := "### 背景\n内容A\n### 目标\n内容B".data

/-- A sibling top-level section whose normalized title is `x`. -/
def siblingSecX : Section :=
  ⟨"q".data, none, "2. x".data, [], 800, "pending".data⟩

/-- A streamed body whose heading carries bold markers around a
leading-space title (normalizing to a title starting with whitespace). -/
def boldSpaceBody : List Char := "### ** x**\n正文".data


/-- A flat list without explicit parent links whose numbering spans three
levels plus an unnumbered root (witness data for reconstruction). -/
def numberedFlatData : List Section :=
  [⟨"a".data, none, "1.1.1 深入".data, [], 500, "pending".data⟩,
   ⟨"b".data, none, "1.1 概述".data, [], 500, "pending".data⟩,
   ⟨"c".data, none, "其他".data, [], 500, "pending".data⟩]


/-- A flat list whose unique `1.1` carrier has the empty string as id
(falsy under the source's `if (parentId)` truthiness check). -/
def emptyIdCarrierData : List Section :=
  [⟨"a".data, none, "1.1.1 深入".data, [], 500, "pending".data⟩,
   ⟨[], none, "1.1 概述".data, [], 500, "pending".data⟩]


/-!  # Theorems

First the supporting lemmas about the embedded definitions, then one
theorem per claim (with witnesses for the theorems that carry
hypotheses).  -/

/-- The fuelled `buildTree` satisfies the source's recursion: this is the
defining equation of `buildTree` in part_002 (depth guard, filter by
parent link, recurse at `depth + 1`). -/
theorem buildTree_eq (list : List FlatSec) (parentId : Option (List Char)) (depth : Nat) :
    buildTree list parentId depth =
      if depth > 10 then []
      else
        (list.filter (fun it => it.parentId == parentId)).map (fun it =>
          let children := buildTree list (some it.id) (depth + 1)
          TNode.mk it.id
            (if it.title = [] then "未命名章节".data else it.title)
            (if it.targetWords = 0 then 0 else it.targetWords)
            "pending".data
            (children.length == 0)
            children) := by
  unfold buildTree
  by_cases h : depth > 10
  · have h0 : 11 - depth = 0 := by omega
    rw [h0]
    simp [buildTreeFuel, h]
  · have h1 : 11 - depth = (10 - depth) + 1 := by omega
    have h2 : 11 - (depth + 1) = 10 - depth := by omega
    rw [h1, h2]
    simp [buildTreeFuel, h]

/-- A prefix of a list is still a prefix after appending. -/
theorem isPrefixOf_append_left {n xs : List Char} (ys : List Char)
    (h : n.isPrefixOf xs = true) : n.isPrefixOf (xs ++ ys) = true := by
  rw [List.isPrefixOf_iff_prefix] at h ⊢
  exact h.trans (List.prefix_append xs ys)

/-- `isPrefixOf` forces the length inequality. -/
theorem isPrefixOf_length_le {n xs : List Char} (h : n.isPrefixOf xs = true) :
    n.length ≤ xs.length := by
  rw [List.isPrefixOf_iff_prefix] at h
  exact h.length_le

/-- A failed prefix test stays failed after appending, provided the
needle already fit inside the haystack. -/
theorem isPrefixOf_append_false {n xs : List Char} (ys : List Char)
    (hlen : n.length ≤ xs.length) (h : n.isPrefixOf xs = false) :
    n.isPrefixOf (xs ++ ys) = false := by
  by_contra hc
  have htrue : n.isPrefixOf (xs ++ ys) = true := by
    cases hv : n.isPrefixOf (xs ++ ys) with
    | true => rfl
    | false => exact absurd hv hc
  rw [List.isPrefixOf_iff_prefix] at htrue
  have heq : n = (xs ++ ys).take n.length := by
    rw [List.prefix_iff_eq_take] at htrue
    exact htrue
  rw [List.take_append_of_le_length hlen] at heq
  have : n <+: xs := by
    rw [List.prefix_iff_eq_take]
    exact heq
  rw [← List.isPrefixOf_iff_prefix] at this
  rw [h] at this
  exact Bool.noConfusion this

/-- The empty needle is found at index 0. -/
theorem findSub_nil_needle : ∀ l : List Char, findSub [] l = some 0
  | [] => rfl
  | _ :: _ => by simp [findSub, List.isPrefixOf]

/-- A found occurrence fits inside the haystack. -/
theorem findSub_bound : ∀ (xs n : List Char) (i : Nat),
    findSub n xs = some i → i + n.length ≤ xs.length := by
  intro xs
  induction xs with
  | nil =>
    intro n i h
    by_cases hn : n = []
    · subst hn
      simp [findSub] at h
      omega
    · simp [findSub, hn] at h
  | cons c cs ih =>
    intro n i h
    rw [findSub] at h
    by_cases hp : n.isPrefixOf (c :: cs) = true
    · rw [hp] at h
      simp at h
      have := isPrefixOf_length_le hp
      simp at this ⊢
      omega
    · have hp' : n.isPrefixOf (c :: cs) = false := by
        cases hv : n.isPrefixOf (c :: cs) with
        | true => exact absurd hv hp
        | false => rfl
      rw [hp'] at h
      simp at h
      obtain ⟨j, hj, hji⟩ := h
      have := ih n j hj
      simp
      omega

/-- The first occurrence inside a buffer stays the first occurrence when
more text is appended. -/
theorem findSub_append : ∀ (xs n : List Char) (i : Nat) (ys : List Char),
    findSub n xs = some i → findSub n (xs ++ ys) = some i := by
  intro xs
  induction xs with
  | nil =>
    intro n i ys h
    by_cases hn : n = []
    · subst hn
      simp [findSub] at h
      subst h
      simp [findSub_nil_needle]
    · simp [findSub, hn] at h
  | cons c cs ih =>
    intro n i ys h
    rw [findSub] at h
    by_cases hp : n.isPrefixOf (c :: cs) = true
    · rw [hp] at h
      simp at h
      subst h
      show findSub n (c :: (cs ++ ys)) = some 0
      rw [findSub]
      have : n.isPrefixOf (c :: (cs ++ ys)) = true := by
        have := isPrefixOf_append_left ys hp
        simpa using this
      simp [this]
    · have hp' : n.isPrefixOf (c :: cs) = false := by
        cases hv : n.isPrefixOf (c :: cs) with
        | true => exact absurd hv hp
        | false => rfl
      rw [hp'] at h
      simp at h
      obtain ⟨j, hj, hji⟩ := h
      have hlen : n.length ≤ (c :: cs).length := by
        have := findSub_bound cs n j hj
        simp
        omega
      show findSub n (c :: (cs ++ ys)) = some i
      rw [findSub]
      have hfalse : n.isPrefixOf (c :: (cs ++ ys)) = false := by
        have := isPrefixOf_append_false ys hlen hp'
        simpa using this
      rw [hfalse]
      have := ih n j ys hj
      rw [this]
      simp
      omega

/-- Claim C9 — Monotonic channel closure in the demultiplexer: once the
summary channel of an accumulated buffer is closed (the opening delimiter
occurred and a closing delimiter occurs after it), appending any further
chunks leaves the extracted summary text unchanged, even if the appended
text contains more delimiter-like substrings. -/
theorem summary_extraction_monotone (b s : List Char) (h : summaryClosed b = true) :
    extractSummary (b ++ s) = extractSummary b := by
  unfold summaryClosed at h
  cases ho : findSub ("<summary>".data) b with
  | none => rw [ho] at h; exact Bool.noConfusion h
  | some i =>
    rw [ho] at h
    simp only [Option.isSome] at h
    cases hc : findSub ("</summary>".data) (b.drop (i + 9)) with
    | none => simp [hc] at h
    | some j =>
      have hb : findSub ("<summary>".data) (b ++ s) = some i :=
        findSub_append b _ i s ho
      have hib : i + 9 ≤ b.length := by
        have := findSub_bound b ("<summary>".data) i ho
        have h9 : ("<summary>".data).length = 9 := rfl
        omega
      have hdrop : (b ++ s).drop (i + 9) = b.drop (i + 9) ++ s :=
        List.drop_append_of_le_length hib
      have hcb : findSub ("</summary>".data) (b.drop (i + 9) ++ s) = some j :=
        findSub_append _ _ j s hc
      have hjb : j ≤ (b.drop (i + 9)).length := by
        have := findSub_bound (b.drop (i + 9)) ("</summary>".data) j hc
        have h10 : ("</summary>".data).length = 10 := rfl
        omega
      have htake : (b.drop (i + 9) ++ s).take j = (b.drop (i + 9)).take j :=
        List.take_append_of_le_length hjb
      simp only [extractSummary, hb, ho, hdrop, hcb, hc, htake]

/-- Witness for C9 at a concrete closed buffer and a concrete later chunk
that itself contains summary delimiters. -/
theorem summary_extraction_monotone_witness :
    summaryClosed ("<summary>摘要</summary><content>正文".data) = true ∧
    extractSummary ("<summary>摘要</summary><content>正文".data ++ "尾</summary><summary>另".data) =
      extractSummary ("<summary>摘要</summary><content>正文".data) :=
  ⟨by decide,
   summary_extraction_monotone ("<summary>摘要</summary><content>正文".data)
     ("尾</summary><summary>另".data) (by decide)⟩

/-- Claim C2 (counterexample) — the claim asserts that content height
`H + 1` yields page count 2; the computed count divides by `H + G`, so
one extra pixel beyond `H` still gives a single page. -/
theorem updatePageCount_H_plus_one_ne_two :
    updatePageCount (PAGE_HEIGHT_PX + 1) ≠ 2 := by
  have hceil : (⌈(PAGE_HEIGHT_PX + 1) / (PAGE_HEIGHT_PX + PAGE_GAP_PX)⌉ : ℤ) = 1 := by
    rw [Int.ceil_eq_iff]
    constructor
    · norm_num [PAGE_HEIGHT_PX, PAGE_GAP_PX]
    · norm_num [PAGE_HEIGHT_PX, PAGE_GAP_PX]
  unfold updatePageCount
  rw [hceil]
  decide

/-- Claim C2 (amended) — the total page count is `max 1` of the ceiling
of height over `H + G`; height exactly `H` gives one page, height `H + 1`
still gives one page, and the count first reaches 2 when the height
exceeds `H + G`. -/
theorem updatePageCount_spec :
    (∀ h : ℚ, updatePageCount h = max 1 ⌈h / (PAGE_HEIGHT_PX + PAGE_GAP_PX)⌉) ∧
    updatePageCount PAGE_HEIGHT_PX = 1 ∧
    updatePageCount (PAGE_HEIGHT_PX + 1) = 1 ∧
    updatePageCount (PAGE_HEIGHT_PX + PAGE_GAP_PX) = 1 ∧
    updatePageCount (PAGE_HEIGHT_PX + PAGE_GAP_PX + 1) = 2 := by
  refine ⟨fun h => rfl, ?_, ?_, ?_, ?_⟩
  · have hceil : (⌈PAGE_HEIGHT_PX / (PAGE_HEIGHT_PX + PAGE_GAP_PX)⌉ : ℤ) = 1 := by
      rw [Int.ceil_eq_iff]
      constructor
      · norm_num [PAGE_HEIGHT_PX, PAGE_GAP_PX]
      · norm_num [PAGE_HEIGHT_PX, PAGE_GAP_PX]
    unfold updatePageCount
    rw [hceil]
    decide
  · have hceil : (⌈(PAGE_HEIGHT_PX + 1) / (PAGE_HEIGHT_PX + PAGE_GAP_PX)⌉ : ℤ) = 1 := by
      rw [Int.ceil_eq_iff]
      constructor
      · norm_num [PAGE_HEIGHT_PX, PAGE_GAP_PX]
      · norm_num [PAGE_HEIGHT_PX, PAGE_GAP_PX]
    unfold updatePageCount
    rw [hceil]
    decide
  · have hceil : (⌈(PAGE_HEIGHT_PX + PAGE_GAP_PX) / (PAGE_HEIGHT_PX + PAGE_GAP_PX)⌉ : ℤ) = 1 := by
      rw [Int.ceil_eq_iff]
      constructor
      · norm_num [PAGE_HEIGHT_PX, PAGE_GAP_PX]
      · norm_num [PAGE_HEIGHT_PX, PAGE_GAP_PX]
    unfold updatePageCount
    rw [hceil]
    decide
  · have hceil : (⌈(PAGE_HEIGHT_PX + PAGE_GAP_PX + 1) / (PAGE_HEIGHT_PX + PAGE_GAP_PX)⌉ : ℤ) = 2 := by
      rw [Int.ceil_eq_iff]
      constructor
      · norm_num [PAGE_HEIGHT_PX, PAGE_GAP_PX]
      · norm_num [PAGE_HEIGHT_PX, PAGE_GAP_PX]
    unfold updatePageCount
    rw [hceil]
    decide

/-- Claim C3 (counterexample) — repair is not idempotent for every input:
on a bracket followed by two commas, the first pass strips one trailing
comma and closes the bracket, leaving a comma before the closer that a
second pass removes. -/
theorem repairTruncatedJson_not_idempotent :
    repairTruncatedJson (repairTruncatedJson "[,,".data) ≠ repairTruncatedJson "[,,".data := by
  decide

/-- Claim C3 (amended) — repair is idempotent on the payloads the spec
exercises (it fixes the unquoted-key payload and a truncated array to
stable outputs), but not for every input: iterating on the counterexample
input reaches a fixed point only after the second application. -/
theorem repairTruncatedJson_idempotent_instances :
    repairTruncatedJson (repairTruncatedJson unquotedKeyPayload) =
      repairTruncatedJson unquotedKeyPayload ∧
    repairTruncatedJson (repairTruncatedJson "[1,".data) = repairTruncatedJson "[1,".data ∧
    repairTruncatedJson (repairTruncatedJson (repairTruncatedJson "[,,".data)) =
      repairTruncatedJson (repairTruncatedJson "[,,".data) := by
  refine ⟨?_, ?_, ?_⟩ <;> decide

/-- Claim C8 — repairing the unquoted-key payload yields exactly the
quoted JSON text, and that text decodes to the array holding one object
with the `title` and `targetWords` members. -/
theorem repairTruncatedJson_unquoted_keys :
    repairTruncatedJson unquotedKeyPayload = "[\x7b\"title\":\"A\",\"targetWords\":100\x7d]".data ∧
    parseJsonText (repairTruncatedJson unquotedKeyPayload) =
      some (.arr [.obj [("title".data, .str "A".data), ("targetWords".data, .num 100)]]) :=
  ⟨by decide, rfl⟩

/-- Claim C1 (counterexample) — on the spec example's input (top-level
parent, body with `##` headings) the final merge produces no children at
all: `##` is not strictly deeper than the parent's own level 2, so the
whole body is assigned to the parent and the document keeps its single
section (the claim requires children `1.1 背景` and `1.2 目标`). -/
theorem syncSubSectionsToOutline_hash2_no_children :
    syncSubSectionsToOutline [parentSec] "p".data exampleBodyHash2 7 =
      [⟨"p".data, none, "1. 总览".data, exampleBodyHash2, 1000, "writing".data⟩] := by
  decide

/-- Claim C1 (amended) — with the example's headings at level 3 (strictly
deeper than the top-level parent's level 2), the final merge assigns the
(empty) pre-heading prose to the parent and creates exactly the children
`1.1 背景` and `1.2 目标` carrying `内容A` and `内容B`. -/
theorem syncSubSectionsToOutline_final_merge_example :
    syncSubSectionsToOutline [parentSec] "p".data exampleBodyHash3 7 =
      [⟨"p".data, none, "1. 总览".data, [], 1000, "writing".data⟩,
       ⟨"p-sub-7-0".data, some "p".data, "1.1 背景".data, "内容A".data, 500, "completed".data⟩,
       ⟨"p-sub-7-1".data, some "p".data, "1.2 目标".data, "内容B".data, 500, "completed".data⟩] := by
  decide

/-- Claim C4 (code bug) — the realtime heading-inference merge can break
global normalized-title uniqueness: starting from two sections whose
normalized titles (`总览`, `x`) are distinct, a streamed heading
`### ** x**` normalizes to a leading-space `x`, passes the global
dedup check, and is stored under the renumbered title `1.1  x`, whose
normalization collides with the existing section `2. x`. -/
theorem syncRealtime_duplicate_normalized_title :
    ((syncSubSectionsToOutlineRealtime [parentSec, siblingSecX] "p".data boldSpaceBody 9).map
        (fun s => getNormalizedTitle s.title) =
      ["总览".data, "x".data, "x".data]) ∧
    ¬ ((syncSubSectionsToOutlineRealtime [parentSec, siblingSecX] "p".data boldSpaceBody 9).map
        (fun s => getNormalizedTitle s.title)).Nodup := by
  refine ⟨by decide, ?_⟩
  intro h
  rw [show (syncSubSectionsToOutlineRealtime [parentSec, siblingSecX] "p".data boldSpaceBody 9).map
        (fun s => getNormalizedTitle s.title) = ["总览".data, "x".data, "x".data] from by decide] at h
  simp at h

mutual

/-- Validation never changes an item's title, level, or tree shape. -/
theorem validateItem_shape : ∀ x : OItem, itemShape (validateItem x) = itemShape x
  | .mk t l w cs => by
    simp only [validateItem, itemShape]
    exact congrArg (OItem.mk t l 0) (validateAndFixTargetWords_shape cs)

/-- Validation never adds or removes items. -/
theorem validateAndFixTargetWords_shape :
    ∀ xs : List OItem, itemsShape (validateAndFixTargetWords xs) = itemsShape xs
  | [] => rfl
  | x :: xs => by
    simp only [validateAndFixTargetWords, itemsShape]
    rw [validateItem_shape x, validateAndFixTargetWords_shape xs]

end

mutual

/-- A validated item's word budget lies within the level-appropriate
bound (floor 50), recursively. -/
theorem validateItem_bounds : ∀ x : OItem, itemInBounds (validateItem x) = true
  | .mk t l w cs => by
    simp only [validateItem, itemInBounds, levelMaxWords]
    rw [validateAndFixTargetWords_bounds cs]
    simp only [Bool.and_true, Bool.and_eq_true, decide_eq_true_eq]
    constructor
    · split_ifs <;> omega
    · split_ifs <;> omega

/-- Bounds hold across a validated list, recursively. -/
theorem validateAndFixTargetWords_bounds :
    ∀ xs : List OItem, itemsInBounds (validateAndFixTargetWords xs) = true
  | [] => rfl
  | x :: xs => by
    simp only [validateAndFixTargetWords, itemsInBounds]
    rw [validateItem_bounds x, validateAndFixTargetWords_bounds xs]
    rfl

end

/-- Claim C5 — `validateAndFixTargetWords` never rejects or removes an
item (the shapes with budgets erased agree), leaves every item's budget
within the level-appropriate bound with floor 50, and corrects a level-2
item submitted with 800000 words to exactly 50000 (hence at most 50000
and at least 50). -/
theorem validateAndFixTargetWords_spec :
    ∀ items : List OItem,
      itemsShape (validateAndFixTargetWords items) = itemsShape items ∧
      itemsInBounds (validateAndFixTargetWords items) = true ∧
      ∀ t cs, validateAndFixTargetWords [OItem.mk t 2 800000 cs] =
        [OItem.mk t 2 50000 (validateAndFixTargetWords cs)] := by
  intro items
  refine ⟨validateAndFixTargetWords_shape items, validateAndFixTargetWords_bounds items, ?_⟩
  intro t cs
  rfl

/-- Folding assignments over data that never writes prefix `q` leaves the
map unchanged at `q`. -/
theorem prefixMapFold_preserve :
    ∀ (data : List Section) (m : List Char → Option (List Char)) (q : List Char),
      (∀ y ∈ data, getSectionNumberPrefix y.title ≠ q) →
      data.foldl prefixMapStep m q = m q := by
  intro data
  induction data with
  | nil => intro m q _; rfl
  | cons a rest ih =>
    intro m q hq
    have hrest : ∀ y ∈ rest, getSectionNumberPrefix y.title ≠ q := by
      intro y hy; exact hq y (List.mem_cons_of_mem a hy)
    show List.foldl prefixMapStep (prefixMapStep m a) rest q = m q
    rw [ih (prefixMapStep m a) q hrest]
    unfold prefixMapStep
    by_cases hp : getSectionNumberPrefix a.title = []
    · simp [hp]
    · have hne : q ≠ getSectionNumberPrefix a.title :=
        fun hqe => hq a (List.mem_cons_self a rest) hqe.symm
      simp [hp, hne]

/-- Every binding the fold returns comes from some item of the data (or
was already in the initial map). -/
theorem prefixMapFold_some :
    ∀ (data : List Section) (m : List Char → Option (List Char)) (q v : List Char),
      data.foldl prefixMapStep m q = some v →
      (∃ x ∈ data, getSectionNumberPrefix x.title = q ∧ x.id = v) ∨ m q = some v := by
  intro data
  induction data with
  | nil => intro m q v h; exact Or.inr h
  | cons a rest ih =>
    intro m q v h
    rcases ih (prefixMapStep m a) q v h with hx | hm
    · rcases hx with ⟨x, hxm, hxp, hxv⟩
      exact Or.inl ⟨x, List.mem_cons_of_mem a hxm, hxp, hxv⟩
    · unfold prefixMapStep at hm
      by_cases hp : getSectionNumberPrefix a.title = []
      · rw [if_pos hp] at hm
        exact Or.inr hm
      · rw [if_neg hp] at hm
        by_cases hq : q = getSectionNumberPrefix a.title
        · simp only [hq, if_pos rfl] at hm
          exact Or.inl ⟨a, List.mem_cons_self a rest, hq.symm, Option.some.inj hm⟩
        · simp only [if_neg hq] at hm
          exact Or.inr hm

/-- When some item of the data carries prefix `q` and every carrier of
`q` has id `v`, the fold returns `v` at `q`. -/
theorem prefixMapFold_last :
    ∀ (data : List Section) (m : List Char → Option (List Char)) (q v : List Char),
      q ≠ [] →
      (∃ x ∈ data, getSectionNumberPrefix x.title = q) →
      (∀ y ∈ data, getSectionNumberPrefix y.title = q → y.id = v) →
      data.foldl prefixMapStep m q = some v := by
  intro data
  induction data with
  | nil =>
    intro m q v _ hex _
    rcases hex with ⟨x, hx, _⟩
    exact absurd hx (List.not_mem_nil x)
  | cons a rest ih =>
    intro m q v hq hex huniq
    show List.foldl prefixMapStep (prefixMapStep m a) rest q = some v
    by_cases hrest : ∃ x ∈ rest, getSectionNumberPrefix x.title = q
    · exact ih (prefixMapStep m a) q v hq hrest
        (fun y hy hyq => huniq y (List.mem_cons_of_mem a hy) hyq)
    · have hap : getSectionNumberPrefix a.title = q := by
        rcases hex with ⟨x, hx, hxq⟩
        rcases List.mem_cons.mp hx with hxa | hxr
        · rw [← hxa]; exact hxq
        · exact absurd ⟨x, hxr, hxq⟩ hrest
      have hnone : ∀ y ∈ rest, getSectionNumberPrefix y.title ≠ q := by
        intro y hy hyq
        exact hrest ⟨y, hy, hyq⟩
      rw [prefixMapFold_preserve rest (prefixMapStep m a) q hnone]
      unfold prefixMapStep
      rw [← hap] at hq
      rw [if_neg hq]
      simp only [hap, if_pos rfl]
      exact congrArg some (huniq a (List.mem_cons_self a rest) hap)

/-- A hit in `prefixMap` names the id of some data item carrying that
prefix. -/
theorem sectionPrefixMap_some {data : List Section} {q v : List Char}
    (h : sectionPrefixMap data q = some v) :
    ∃ x ∈ data, getSectionNumberPrefix x.title = q ∧ x.id = v := by
  rcases prefixMapFold_some data (fun _ => none) q v h with hx | hm
  · exact hx
  · exact Option.noConfusion hm

/-- `prefixMap` lookup under a uniqueness assumption for the prefix. -/
theorem sectionPrefixMap_eq {data : List Section} {q v : List Char}
    (hq : q ≠ []) (hex : ∃ x ∈ data, getSectionNumberPrefix x.title = q)
    (huniq : ∀ y ∈ data, getSectionNumberPrefix y.title = q → y.id = v) :
    sectionPrefixMap data q = some v :=
  prefixMapFold_last data (fun _ => none) q v hq hex huniq

/-- `prefixMap` misses prefixes no data item carries. -/
theorem sectionPrefixMap_none {data : List Section} {q : List Char}
    (h : ∀ y ∈ data, getSectionNumberPrefix y.title ≠ q) :
    sectionPrefixMap data q = none :=
  prefixMapFold_preserve data (fun _ => none) q h

/-- `reconstructHierarchy` permutes the parent-assigned data. -/
theorem reconstructHierarchy_perm (data : List Section) :
    (reconstructHierarchy data).Perm
      (data.map (assignParentId (sectionPrefixMap data))) := by
  unfold reconstructHierarchy
  by_cases hd : data = []
  · subst hd; simp
  · rw [if_neg hd]
    exact List.perm_insertionSort _ _

/-- Each parent-assigned item appears in the reconstruction output. -/
theorem assign_mem_reconstructHierarchy {data : List Section} {x : Section}
    (hx : x ∈ data) :
    assignParentId (sectionPrefixMap data) x ∈ reconstructHierarchy data := by
  have hperm := reconstructHierarchy_perm data
  rw [hperm.mem_iff]
  exact List.mem_map_of_mem (assignParentId (sectionPrefixMap data)) hx

/-- Erasing the parent link commutes with parent assignment. -/
theorem assignParentId_clear (pm : List Char → Option (List Char)) (x : Section) :
    { assignParentId pm x with parentId := none } = { x with parentId := none } := by
  unfold assignParentId
  by_cases h1 : getSectionNumberPrefix x.title = []
  · simp [h1]
  · rw [if_neg h1]
    by_cases h2 : (splitDot (getSectionNumberPrefix x.title)).length > 1
    · rw [if_pos h2]
      cases pm (joinDot (splitDot (getSectionNumberPrefix x.title)).dropLast) with
      | none => rfl
      | some pid => by_cases hpid : pid = [] <;> simp [hpid]
    · rw [if_neg h2]

/-- `assignParentId` on an unnumbered item. -/
theorem assignParentId_unnumbered {pm : List Char → Option (List Char)} {it : Section}
    (h1 : getSectionNumberPrefix it.title = []) :
    assignParentId pm it = { it with parentId := it.parentId } := by
  unfold assignParentId
  rw [if_pos h1]

/-- `assignParentId` on a single-component prefix. -/
theorem assignParentId_short {pm : List Char → Option (List Char)} {it : Section}
    (h1 : getSectionNumberPrefix it.title ≠ [])
    (h2 : ¬ (splitDot (getSectionNumberPrefix it.title)).length > 1) :
    assignParentId pm it = { it with parentId := none } := by
  unfold assignParentId
  rw [if_neg h1, if_neg h2]

/-- `assignParentId` when the parent-prefix lookup hits: the source's
truthiness check decides between linking and rooting. -/
theorem assignParentId_eq_of_lookup {pm : List Char → Option (List Char)} {it : Section}
    {pid : List Char}
    (h1 : getSectionNumberPrefix it.title ≠ [])
    (h2 : (splitDot (getSectionNumberPrefix it.title)).length > 1)
    (h3 : pm (joinDot (splitDot (getSectionNumberPrefix it.title)).dropLast) = some pid) :
    assignParentId pm it =
      if pid ≠ [] then { it with parentId := some pid }
      else { it with parentId := none } := by
  unfold assignParentId
  rw [if_neg h1, if_pos h2, h3]

/-- `assignParentId` when the parent-prefix lookup misses. -/
theorem assignParentId_eq_of_lookup_none {pm : List Char → Option (List Char)} {it : Section}
    (h1 : getSectionNumberPrefix it.title ≠ [])
    (h2 : (splitDot (getSectionNumberPrefix it.title)).length > 1)
    (h3 : pm (joinDot (splitDot (getSectionNumberPrefix it.title)).dropLast) = none) :
    assignParentId pm it = { it with parentId := none } := by
  unfold assignParentId
  rw [if_neg h1, if_pos h2, h3]

/-- Claim C10 — reconstruction with no pre-existing parent links yields
no dangling parents: every output parent link is null or the id of some
input element, and the output is a permutation of the input with only
the parent links set. -/
theorem reconstructHierarchy_no_dangling (data : List Section)
    (h : ∀ s ∈ data, s.parentId = none) :
    (∀ z ∈ reconstructHierarchy data,
        z.parentId = none ∨ ∃ x ∈ data, z.parentId = some x.id) ∧
    (reconstructHierarchy data).length = data.length ∧
    ((reconstructHierarchy data).map (fun z => { z with parentId := none })).Perm data := by
  have hperm := reconstructHierarchy_perm data
  refine ⟨?_, ?_, ?_⟩
  · intro z hz
    rw [hperm.mem_iff] at hz
    rcases List.mem_map.mp hz with ⟨x, hxd, hxz⟩
    subst hxz
    by_cases h1 : getSectionNumberPrefix x.title = []
    · rw [assignParentId_unnumbered h1]
      exact Or.inl (h x hxd)
    · by_cases h2 : (splitDot (getSectionNumberPrefix x.title)).length > 1
      · cases hpm : sectionPrefixMap data (joinDot (splitDot (getSectionNumberPrefix x.title)).dropLast) with
        | none =>
          rw [assignParentId_eq_of_lookup_none h1 h2 hpm]
          exact Or.inl rfl
        | some pid =>
          rw [assignParentId_eq_of_lookup h1 h2 hpm]
          by_cases hpid : pid = []
          · rw [if_neg (not_not_intro hpid)]
            exact Or.inl rfl
          · rw [if_pos hpid]
            rcases sectionPrefixMap_some hpm with ⟨y, hyd, _, hyv⟩
            exact Or.inr ⟨y, hyd, by rw [hyv]⟩
      · rw [assignParentId_short h1 h2]
        exact Or.inl rfl
  · rw [hperm.length_eq, List.length_map]
  · have hmapped : ((data.map (assignParentId (sectionPrefixMap data))).map
        (fun z => { z with parentId := none })) = data := by
      rw [List.map_map]
      have hptwise : ∀ x ∈ data,
          ((fun z => { z with parentId := none }) ∘ assignParentId (sectionPrefixMap data)) x
            = id x := by
        intro x hx
        show { assignParentId (sectionPrefixMap data) x with parentId := none } = x
        rw [assignParentId_clear]
        have hxp := h x hx
        cases x with
        | mk i p ti co w st =>
          simp only at hxp
          rw [hxp]
      rw [List.map_congr_left hptwise, List.map_id]
    have hfinal := hperm.map (fun z => { z with parentId := none })
    rw [hmapped] at hfinal
    exact hfinal

/-- Witness for C10 on a concrete parentless list. -/
theorem reconstructHierarchy_no_dangling_witness :
    (∀ z ∈ reconstructHierarchy numberedFlatData,
        z.parentId = none ∨ ∃ x ∈ numberedFlatData, z.parentId = some x.id) ∧
    (reconstructHierarchy numberedFlatData).length = numberedFlatData.length ∧
    ((reconstructHierarchy numberedFlatData).map
        (fun z => { z with parentId := none })).Perm numberedFlatData :=
  reconstructHierarchy_no_dangling numberedFlatData (by decide)

/-- Claim C6 (counterexample) — the claim fails when the `1.1` carrier's
id is the empty string: the source's `if (parentId)` truthiness check
treats the looked-up empty id as falsy, so the `1.1.1` section becomes a
root instead of receiving the carrier as parent, although a section
titled `1.1 ...` exists in the list. -/
theorem reconstructHierarchy_numbering_counterexample :
    ((reconstructHierarchy emptyIdCarrierData).map (fun s => (s.id, s.parentId)) =
      [(([] : List Char), (none : Option (List Char))), ("a".data, none)]) ∧
    ¬ ∃ w ∈ reconstructHierarchy emptyIdCarrierData,
        w.id = "a".data ∧ w.parentId = some ([] : List Char) := by
  refine ⟨by decide, ?_⟩
  decide

/-- Claim C6 (amended) — reconstruction assigns a section with numbering
prefix `1.1.1` the parent carrying prefix `1.1` whenever that carrier
exists (uniquely) with a truthy (non-empty) id; a section becomes a root
when its prefix has a single component, it has no discoverable prefix,
its parent prefix is absent from the list, or the looked-up parent id is
falsy (the empty string). -/
theorem reconstructHierarchy_numbering (data : List Section)
    (h : ∀ s ∈ data, s.parentId = none) :
    (∀ x ∈ data, ∀ y ∈ data,
      getSectionNumberPrefix x.title = "1.1.1".data →
      getSectionNumberPrefix y.title = "1.1".data →
      y.id ≠ [] →
      (∀ z ∈ data, getSectionNumberPrefix z.title = "1.1".data → z.id = y.id) →
      ∃ w ∈ reconstructHierarchy data,
        w.id = x.id ∧ w.title = x.title ∧ w.parentId = some y.id) ∧
    (∀ x ∈ data,
      ((splitDot (getSectionNumberPrefix x.title)).length ≤ 1 ∨
       (∀ z ∈ data, getSectionNumberPrefix z.title ≠
          joinDot (splitDot (getSectionNumberPrefix x.title)).dropLast)) →
      ∃ w ∈ reconstructHierarchy data,
        w.id = x.id ∧ w.title = x.title ∧ w.parentId = none) ∧
    (∀ x ∈ data,
      getSectionNumberPrefix x.title = "1.1.1".data →
      (∀ z ∈ data, getSectionNumberPrefix z.title = "1.1".data → z.id = []) →
      ∃ w ∈ reconstructHierarchy data,
        w.id = x.id ∧ w.title = x.title ∧ w.parentId = none) := by
  refine ⟨?_, ?_, ?_⟩
  · intro x hx y hy hpx hpy hyid huniq
    have h1 : getSectionNumberPrefix x.title ≠ [] := by rw [hpx]; decide
    have h2 : (splitDot (getSectionNumberPrefix x.title)).length > 1 := by rw [hpx]; decide
    have h3 : sectionPrefixMap data
        (joinDot (splitDot (getSectionNumberPrefix x.title)).dropLast) = some y.id := by
      rw [hpx]
      exact sectionPrefixMap_eq (by decide) ⟨y, hy, hpy⟩ huniq
    refine ⟨assignParentId (sectionPrefixMap data) x, assign_mem_reconstructHierarchy hx, ?_⟩
    rw [assignParentId_eq_of_lookup h1 h2 h3, if_pos hyid]
    exact ⟨rfl, rfl, rfl⟩
  · intro x hx hcase
    refine ⟨assignParentId (sectionPrefixMap data) x, assign_mem_reconstructHierarchy hx, ?_⟩
    by_cases h1 : getSectionNumberPrefix x.title = []
    · rw [assignParentId_unnumbered h1]
      exact ⟨rfl, rfl, h x hx⟩
    · by_cases h2 : (splitDot (getSectionNumberPrefix x.title)).length > 1
      · have hnone : ∀ z ∈ data, getSectionNumberPrefix z.title ≠
            joinDot (splitDot (getSectionNumberPrefix x.title)).dropLast := by
          rcases hcase with hlen | habsent
          · omega
          · exact habsent
        rw [assignParentId_eq_of_lookup_none h1 h2 (sectionPrefixMap_none hnone)]
        exact ⟨rfl, rfl, rfl⟩
      · rw [assignParentId_short h1 h2]
        exact ⟨rfl, rfl, rfl⟩
  · intro x hx hpx hfalsy
    refine ⟨assignParentId (sectionPrefixMap data) x, assign_mem_reconstructHierarchy hx, ?_⟩
    have h1 : getSectionNumberPrefix x.title ≠ [] := by rw [hpx]; decide
    have h2 : (splitDot (getSectionNumberPrefix x.title)).length > 1 := by rw [hpx]; decide
    by_cases hex : ∃ z ∈ data, getSectionNumberPrefix z.title = "1.1".data
    · have h3 : sectionPrefixMap data
          (joinDot (splitDot (getSectionNumberPrefix x.title)).dropLast) = some [] := by
        rw [hpx]
        exact sectionPrefixMap_eq (by decide) hex hfalsy
      rw [assignParentId_eq_of_lookup h1 h2 h3]
      rw [if_neg (by decide : ¬(([] : List Char) ≠ []))]
      exact ⟨rfl, rfl, rfl⟩
    · have habsent : ∀ z ∈ data, getSectionNumberPrefix z.title ≠ "1.1".data :=
        fun z hz hzp => hex ⟨z, hz, hzp⟩
      have h3 : sectionPrefixMap data
          (joinDot (splitDot (getSectionNumberPrefix x.title)).dropLast) = none := by
        rw [hpx]
        exact sectionPrefixMap_none habsent
      rw [assignParentId_eq_of_lookup_none h1 h2 h3]
      exact ⟨rfl, rfl, rfl⟩

/-- Witness for C6 on a concrete flat list: `1.1.1 深入` is attached to
the unique non-empty-id `1.1` carrier, and the unnumbered `其他` becomes
a root. -/
theorem reconstructHierarchy_numbering_witness :
    (∃ w ∈ reconstructHierarchy numberedFlatData,
        w.id = "a".data ∧ w.title = "1.1.1 深入".data ∧ w.parentId = some "b".data) ∧
    (∃ w ∈ reconstructHierarchy numberedFlatData,
        w.id = "c".data ∧ w.title = "其他".data ∧ w.parentId = none) := by
  have h := reconstructHierarchy_numbering numberedFlatData (by decide)
  constructor
  · exact h.1 ⟨"a".data, none, "1.1.1 深入".data, [], 500, "pending".data⟩ (by decide)
      ⟨"b".data, none, "1.1 概述".data, [], 500, "pending".data⟩ (by decide)
      (by decide) (by decide) (by decide) (by decide)
  · exact h.2.1 ⟨"c".data, none, "其他".data, [], 500, "pending".data⟩ (by decide)
      (Or.inl (by decide))

/-- Filtering with an everywhere-false predicate yields the empty list. -/
theorem filter_eq_nil_of_false {α : Type} (p : α → Bool) :
    ∀ l : List α, (∀ a ∈ l, p a = false) → l.filter p = [] := by
  intro l h
  induction l with
  | nil => rfl
  | cons a l ih =>
    rw [List.filter_cons]
    rw [h a (List.mem_cons_self a l)]
    exact ih (fun b hb => h b (List.mem_cons_of_mem a hb))

/-- A forest member occurs among all nodes of the forest. -/
theorem mem_allNodesList_of_mem : ∀ {us : List NSec} {t : NSec}, t ∈ us → t ∈ allNodesList us := by
  intro us
  induction us with
  | nil => intro t ht; exact absurd ht (List.not_mem_nil t)
  | cons u rest ih =>
    intro t ht
    rw [show allNodesList (u :: rest) = allNodesOne u ++ allNodesList rest from rfl]
    rcases List.mem_cons.mp ht with hu | hr
    · subst hu
      apply List.mem_append_left
      cases t with
      | mk i ti w cs => exact List.mem_cons_self _ _
    · exact List.mem_append_right _ (ih hr)

/-- Nodes of a member's child forest occur among all nodes of the forest. -/
theorem mem_allNodesList_children : ∀ {us : List NSec} {t n : NSec},
    t ∈ us → n ∈ allNodesList t.children → n ∈ allNodesList us := by
  intro us
  induction us with
  | nil => intro t n ht _; exact absurd ht (List.not_mem_nil t)
  | cons u rest ih =>
    intro t n ht hn
    rw [show allNodesList (u :: rest) = allNodesOne u ++ allNodesList rest from rfl]
    rcases List.mem_cons.mp ht with hu | hr
    · subst hu
      apply List.mem_append_left
      cases t with
      | mk i ti w cs => exact List.mem_cons_of_mem _ hn
    · exact List.mem_append_right _ (ih hr hn)

/-- Depth of one node versus the depth of its child forest. -/
theorem depthOne_eq (t : NSec) : depthOne t = 1 + depthList t.children := by
  cases t with
  | mk i ti w cs => rfl

/-- A member's depth bounds the forest depth from below. -/
theorem depthOne_le_of_mem : ∀ {us : List NSec} {t : NSec}, t ∈ us → depthOne t ≤ depthList us := by
  intro us
  induction us with
  | nil => intro t ht; exact absurd ht (List.not_mem_nil t)
  | cons u rest ih =>
    intro t ht
    rw [show depthList (u :: rest) = max (depthOne u) (depthList rest) from rfl]
    rcases List.mem_cons.mp ht with hu | hr
    · subst hu; exact le_max_left _ _
    · exact le_trans (ih hr) (le_max_right _ _)

/-- A non-empty forest has positive depth. -/
theorem depthList_pos {t : NSec} {ts : List NSec} : 1 ≤ depthList (t :: ts) := by
  have h := depthOne_le_of_mem (List.mem_cons_self t ts)
  have h1 : 1 ≤ depthOne t := by rw [depthOne_eq]; omega
  omega

mutual

/-- Every record a subtree flattened under a non-null parent produces
carries a non-null parent link. -/
theorem flattenOne_parent_ne_none : ∀ (t : NSec) (j : List Char) (f : FlatSec),
    f ∈ flattenOne t (some j) → f.parentId ≠ none
  | .mk i ti w cs, j, f => by
    intro hf
    rw [show flattenOne (.mk i ti w cs) (some j)
          = ⟨i, ti, w, some j⟩ :: flattenOutline cs (some i) from rfl] at hf
    rcases List.mem_cons.mp hf with hh | hr
    · subst hh; simp
    · exact flattenOutline_parent_ne_none cs i f hr

/-- Every record a forest flattened under a non-null parent produces
carries a non-null parent link. -/
theorem flattenOutline_parent_ne_none : ∀ (ts : List NSec) (j : List Char) (f : FlatSec),
    f ∈ flattenOutline ts (some j) → f.parentId ≠ none
  | [], _, _ => by intro hf; exact absurd hf (List.not_mem_nil _)
  | t :: ts, j, f => by
    intro hf
    rw [show flattenOutline (t :: ts) (some j)
          = flattenOne t (some j) ++ flattenOutline ts (some j) from rfl] at hf
    rcases List.mem_append.mp hf with h1 | h2
    · exact flattenOne_parent_ne_none t j f h1
    · exact flattenOutline_parent_ne_none ts j f h2

end

mutual

/-- No record of a flattened subtree links to a parent id that occurs
nowhere in the subtree and differs from the ambient parent. -/
theorem flattenOne_filter_absent : ∀ (t : NSec) (p : Option (List Char)) (j : List Char),
    (∀ n ∈ allNodesOne t, n.id ≠ j) → p ≠ some j →
    (flattenOne t p).filter (fun f => f.parentId == some j) = []
  | .mk i ti w cs, p, j => by
    intro hids hp
    rw [show flattenOne (.mk i ti w cs) p
          = ⟨i, ti, w, p⟩ :: flattenOutline cs (some i) from rfl]
    rw [List.filter_cons]
    have hhead : ((⟨i, ti, w, p⟩ : FlatSec).parentId == some j) = false := by
      simp only [show (⟨i, ti, w, p⟩ : FlatSec).parentId = p from rfl]
      exact beq_eq_false_iff_ne.mpr hp
    rw [hhead]
    simp only [Bool.false_eq_true, if_false]
    have hi : i ≠ j := by
      have := hids (.mk i ti w cs) (List.mem_cons_self _ _)
      simpa using this
    exact flattenOutline_filter_absent cs (some i) j
      (fun n hn => hids n (List.mem_cons_of_mem _ hn))
      (fun hc => hi (Option.some.inj hc))

/-- No record of a flattened forest links to a parent id that occurs
nowhere in the forest and differs from the ambient parent. -/
theorem flattenOutline_filter_absent : ∀ (ts : List NSec) (p : Option (List Char)) (j : List Char),
    (∀ n ∈ allNodesList ts, n.id ≠ j) → p ≠ some j →
    (flattenOutline ts p).filter (fun f => f.parentId == some j) = []
  | [], _, _ => by intro _ _; rfl
  | t :: ts, p, j => by
    intro hids hp
    rw [show flattenOutline (t :: ts) p = flattenOne t p ++ flattenOutline ts p from rfl]
    rw [List.filter_append]
    rw [flattenOne_filter_absent t p j
      (fun n hn => hids n (List.mem_append_left _ hn)) hp]
    rw [flattenOutline_filter_absent ts p j
      (fun n hn => hids n (List.mem_append_right _ hn)) hp]
    rfl

end

/-- Filtering a forest flattened under parent `j` by parent `j` returns
exactly the root records, provided `j` names no node of the forest. -/
theorem flattenOutline_filter_self : ∀ (ts : List NSec) (j : List Char),
    (∀ n ∈ allNodesList ts, n.id ≠ j) →
    (flattenOutline ts (some j)).filter (fun f => f.parentId == some j) =
      ts.map (fun t => flatHead t (some j)) := by
  intro ts
  induction ts with
  | nil => intro j _; rfl
  | cons t rest ih =>
    intro j hids
    rw [show flattenOutline (t :: rest) (some j)
          = flattenOne t (some j) ++ flattenOutline rest (some j) from rfl]
    rw [List.filter_append]
    cases t with
    | mk i ti w cs =>
      rw [show flattenOne (.mk i ti w cs) (some j)
            = ⟨i, ti, w, some j⟩ :: flattenOutline cs (some i) from rfl]
      rw [List.filter_cons]
      have hhead : ((⟨i, ti, w, some j⟩ : FlatSec).parentId == some j) = true := by
        simp
      rw [hhead]
      simp only [if_true]
      have hi : i ≠ j := by
        have := hids (.mk i ti w cs) (List.mem_append_left _ (List.mem_cons_self _ _))
        simpa using this
      rw [flattenOutline_filter_absent cs (some i) j
        (fun n hn => hids n (List.mem_append_left _ (List.mem_cons_of_mem _ hn)))
        (fun hc => hi (Option.some.inj hc))]
      rw [ih j (fun n hn => hids n (List.mem_append_right _ hn))]
      rfl

/-- Filtering the flattening of a root forest by the null parent returns
exactly the root records. -/
theorem flattenOutline_filter_root : ∀ ts : List NSec,
    (flattenOutline ts none).filter (fun f => f.parentId == none) =
      ts.map (fun t => flatHead t none) := by
  intro ts
  induction ts with
  | nil => rfl
  | cons t rest ih =>
    rw [show flattenOutline (t :: rest) none
          = flattenOne t none ++ flattenOutline rest none from rfl]
    rw [List.filter_append]
    cases t with
    | mk i ti w cs =>
      rw [show flattenOne (.mk i ti w cs) none
            = ⟨i, ti, w, none⟩ :: flattenOutline cs (some i) from rfl]
      rw [List.filter_cons]
      have hhead : ((⟨i, ti, w, none⟩ : FlatSec).parentId == none) = true := by simp
      rw [hhead]
      simp only [if_true]
      rw [filter_eq_nil_of_false _ (flattenOutline cs (some i)) (by
        intro f hf
        have := flattenOutline_parent_ne_none cs i f hf
        exact beq_eq_false_iff_ne.mpr this)]
      rw [ih]
      rfl

mutual

/-- Filtering a flattened subtree by a parent id characterizes the hit
through `find?` over the subtree's nodes (ambient parent different,
subtree ids distinct). -/
theorem flattenOne_filter_find : ∀ (t : NSec) (p : Option (List Char)) (j : List Char),
    ((allNodesOne t).map NSec.id).Nodup → p ≠ some j →
    (flattenOne t p).filter (fun f => f.parentId == some j) =
      (match (allNodesOne t).find? (fun n => n.id == j) with
       | some n => n.children.map (fun c => flatHead c (some j))
       | none => [])
  | .mk i ti w cs, p, j => by
    intro hnd hp
    rw [show flattenOne (.mk i ti w cs) p
          = ⟨i, ti, w, p⟩ :: flattenOutline cs (some i) from rfl]
    rw [List.filter_cons]
    have hhead : ((⟨i, ti, w, p⟩ : FlatSec).parentId == some j) = false := by
      simp only [show (⟨i, ti, w, p⟩ : FlatSec).parentId = p from rfl]
      exact beq_eq_false_iff_ne.mpr hp
    rw [hhead]
    simp only [Bool.false_eq_true, if_false]
    rw [show allNodesOne (.mk i ti w cs) = .mk i ti w cs :: allNodesList cs from rfl]
    rw [List.find?_cons]
    have hmap : (List.map NSec.id (NSec.mk i ti w cs :: allNodesList cs))
        = i :: (allNodesList cs).map NSec.id := rfl
    rw [show allNodesOne (.mk i ti w cs) = .mk i ti w cs :: allNodesList cs from rfl, hmap] at hnd
    have hnotin : i ∉ (allNodesList cs).map NSec.id := (List.nodup_cons.mp hnd).1
    by_cases hij : i = j
    · subst hij
      have hpred : ((NSec.mk i ti w cs).id == i) = true := by simp [NSec.id]
      simp only [hpred]
      have hinner : ∀ n ∈ allNodesList cs, n.id ≠ i := by
        intro n hn he
        exact hnotin (he ▸ List.mem_map_of_mem NSec.id hn)
      rw [flattenOutline_filter_self cs i hinner]
      simp [NSec.children]
    · have hpred : ((NSec.mk i ti w cs).id == j) = false := by
        simp [NSec.id]
        exact hij
      simp only [hpred]
      exact flattenOutline_filter_find cs (some i) j (List.nodup_cons.mp hnd).2
        (fun hc => hij (Option.some.inj hc))

/-- Filtering a flattened forest by a parent id characterizes the hit
through `find?` over the forest's nodes. -/
theorem flattenOutline_filter_find : ∀ (ts : List NSec) (p : Option (List Char)) (j : List Char),
    ((allNodesList ts).map NSec.id).Nodup → p ≠ some j →
    (flattenOutline ts p).filter (fun f => f.parentId == some j) =
      (match (allNodesList ts).find? (fun n => n.id == j) with
       | some n => n.children.map (fun c => flatHead c (some j))
       | none => [])
  | [], _, _ => by intro _ _; rfl
  | t :: ts, p, j => by
    intro hnd hp
    rw [show flattenOutline (t :: ts) p = flattenOne t p ++ flattenOutline ts p from rfl]
    rw [List.filter_append]
    rw [show allNodesList (t :: ts) = allNodesOne t ++ allNodesList ts from rfl] at hnd ⊢
    rw [List.map_append] at hnd
    have hnd1 : ((allNodesOne t).map NSec.id).Nodup := (List.nodup_append.mp hnd).1
    have hnd2 : ((allNodesList ts).map NSec.id).Nodup := (List.nodup_append.mp hnd).2.1
    have hdisj : ((allNodesOne t).map NSec.id).Disjoint ((allNodesList ts).map NSec.id) :=
      (List.nodup_append.mp hnd).2.2
    rw [flattenOne_filter_find t p j hnd1 hp]
    rw [flattenOutline_filter_find ts p j hnd2 hp]
    rw [List.find?_append]
    cases hf1 : (allNodesOne t).find? (fun n => n.id == j) with
    | some n =>
      have hnone : (allNodesList ts).find? (fun n => n.id == j) = none := by
        rw [List.find?_eq_none]
        intro x hx hpx
        have hnj : n.id = j := by
          have := List.find?_some hf1
          simpa using this
        have hxj : x.id = j := by simpa using hpx
        have hn_mem : n ∈ allNodesOne t := List.mem_of_find?_eq_some hf1
        exact hdisj (hnj ▸ List.mem_map_of_mem NSec.id hn_mem)
          (hxj ▸ List.mem_map_of_mem NSec.id hx)
      rw [hnone]
      simp [Option.or]
    | none =>
      simp [Option.or]

end

/-- For each node of a forest with distinct ids, filtering the root
flattening by that node's id returns exactly its children's records. -/
theorem flatten_filter_children (ts : List NSec) (n : NSec)
    (hnd : (allIds ts).Nodup) (hn : n ∈ allNodesList ts) :
    (flattenOutline ts none).filter (fun f => f.parentId == some n.id) =
      n.children.map (fun c => flatHead c (some n.id)) := by
  have h := flattenOutline_filter_find ts none n.id hnd (by simp)
  rw [h]
  cases hf : (allNodesList ts).find? (fun m => m.id == n.id) with
  | none =>
    exfalso
    rw [List.find?_eq_none] at hf
    exact hf n hn (by simp)
  | some m =>
    have h1 : m.id = n.id := by
      have := List.find?_some hf
      simpa using this
    have h2 : m ∈ allNodesList ts := List.mem_of_find?_eq_some hf
    have hmn : m = n := List.inj_on_of_nodup_map hnd h2 hn h1
    rw [hmn]

/-- The inductive heart of the round trip: when the ambient flat list's
filters agree with a descriptor forest at the current parent key and at
every descendant, `buildTree` rebuilds exactly that forest's skeleton,
provided the forest's levels fit under the depth guard. -/
theorem buildTree_skel_aux : ∀ (m : Nat) (us : List NSec) (L : List FlatSec)
    (q : Option (List Char)) (d : Nat),
    11 - d = m →
    L.filter (fun f => f.parentId == q) = us.map (fun t => flatHead t q) →
    (∀ n ∈ allNodesList us, L.filter (fun f => f.parentId == some n.id) =
      n.children.map (fun c => flatHead c (some n.id))) →
    depthList us + d ≤ 11 →
    skelTs (buildTree L q d) = skelNs us := by
  intro m
  induction m with
  | zero =>
    intro us L q d hm h1 h2 h3
    have hd : d > 10 := by omega
    have hus : us = [] := by
      cases us with
      | nil => rfl
      | cons t ts =>
        exfalso
        have := @depthList_pos t ts
        omega
    subst hus
    rw [buildTree_eq, if_pos hd]
    rfl
  | succ k ih =>
    intro us L q d hm h1 h2 h3
    by_cases hd : d > 10
    · have hus : us = [] := by
        cases us with
        | nil => rfl
        | cons t ts =>
          exfalso
          have := @depthList_pos t ts
          omega
      subst hus
      rw [buildTree_eq, if_pos hd]
      rfl
    · rw [buildTree_eq, if_neg hd, h1]
      have hrec : ∀ t ∈ us, skelTs (buildTree L (some t.id) (d + 1)) = skelNs t.children := by
        intro t ht
        refine ih t.children L (some t.id) (d + 1) (by omega) ?_ ?_ ?_
        · exact h2 t (mem_allNodesList_of_mem ht)
        · intro n hn
          exact h2 n (mem_allNodesList_children ht hn)
        · have hle := depthOne_le_of_mem ht
          have heq := depthOne_eq t
          omega
      clear ih h1 h2 h3 hm hd
      revert hrec
      induction us with
      | nil => intro _; rfl
      | cons t ts ihus =>
        intro hrec
        rw [List.map_cons, List.map_cons]
        rw [show skelNs (t :: ts) = skelN t :: skelNs ts from rfl]
        rw [show ∀ (a : TNode) (l : List TNode), skelTs (a :: l) = skelT a :: skelTs l
              from fun a l => rfl]
        congr 1
        · cases t with
          | mk i ti w cs =>
            have hch := hrec (.mk i ti w cs) (List.mem_cons_self _ _)
            simp only [NSec.id, NSec.children] at hch
            show skelT (TNode.mk i
                (if ti = [] then "未命名章节".data else ti)
                (if w = 0 then 0 else w)
                "pending".data
                ((buildTree L (some i) (d + 1)).length == 0)
                (buildTree L (some i) (d + 1)))
              = skelN (.mk i ti w cs)
            rw [show ∀ k t1 t2 t3 t4 cs', skelT (TNode.mk k t1 t2 t3 t4 cs')
                  = IdTree.mk k (skelTs cs') from fun _ _ _ _ _ _ => rfl]
            rw [show skelN (.mk i ti w cs) = IdTree.mk i (skelNs cs) from rfl]
            rw [hch]
        · exact ihus (fun t' ht' => hrec t' (List.mem_cons_of_mem _ ht'))

/-- Claim C7 (counterexample) — the claim fails for arbitrarily deep
forests: on a 12-level chain of descriptors with distinct ids, the
re-nesting's depth guard cuts the deepest node, so flatten-then-re-nest
does not reconstruct an isomorphic tree. -/
theorem parseNestedOutline_roundtrip_depth_counterexample :
    skelTs (treeData (parseNestedOutline [chainN 11])) ≠ skelNs [chainN 11] := by
  intro h
  have hc := congrArg idForestCount h
  rw [show idForestCount (skelTs (treeData (parseNestedOutline [chainN 11]))) = 11 from by decide] at hc
  rw [show idForestCount (skelNs [chainN 11]) = 12 from by decide] at hc
  exact absurd hc (by decide)

/-- Claim C7 (amended) — for every descriptor forest with distinct ids
and at most 11 levels (the depth guard of the re-nesting), flattening
with `parseNestedOutline` and re-nesting by id/parentId as `treeData`'s
`buildTree` does reconstructs an isomorphic forest: the id-labelled
skeletons agree, hence the parent-child edges agree. -/
theorem parseNestedOutline_buildTree_roundtrip (ts : List NSec)
    (hids : (allIds ts).Nodup) (hdepth : depthList ts ≤ 11) :
    skelTs (treeData (parseNestedOutline ts)) = skelNs ts := by
  show skelTs (buildTree (flattenOutline ts none) none 0) = skelNs ts
  exact buildTree_skel_aux 11 ts (flattenOutline ts none) none 0 rfl
    (flattenOutline_filter_root ts)
    (fun n hn => flatten_filter_children ts n hids hn)
    (by omega)

/-- Witness for C7 on an 11-level chain (the deepest forest the guard
allows) with distinct ids. -/
theorem parseNestedOutline_buildTree_roundtrip_witness :
    skelTs (treeData (parseNestedOutline [chainN 10])) = skelNs [chainN 10] :=
  parseNestedOutline_buildTree_roundtrip [chainN 10] (by decide) (by decide)
